import Mathlib

/-!
Verification of the clpsr IPv4 CIDR compaction core (src/src/lib.rs).

The embedding models an `ipnet::Ipv4Net` as a stored 32-bit address plus a
stored prefix length (field `plen`, modelling `prefix_len`).  The stored
address need not be aligned to the network boundary; derived quantities
(`network()`, `broadcast()`) mask it, exactly as the `ipnet` crate does.
Machine integers are modelled as `Nat` with explicit `% 2^32` where the Rust
code performs wrapping 32-bit arithmetic (release-profile semantics).
-/

namespace Clpsr

/-- An IPv4 network value: stored address and stored prefix length.
Mirrors `ipnet::Ipv4Net { addr, prefix_len }`; the `Ipv4Net` constructors
enforce `prefix_len <= 32` and a 32-bit address, which the `Valid`
predicate below captures. -/
structure Net where
  addr : ℕ
  plen : ℕ
deriving DecidableEq, Repr

/-- The type invariant `ipnet::Ipv4Net` maintains: 32-bit address, prefix
length at most 32. -/
def Valid (n : Net) : Prop := n.addr < 2 ^ 32 ∧ n.plen ≤ 32

/-- Number of addresses in one block at this prefix length: `2^(32-plen)`. -/
def blockSize (n : Net) : ℕ := 2 ^ (32 - n.plen)

/-- `u32::from(net.network())`: stored address with the low host bits
cleared. -/
def netAddr (n : Net) : ℕ := n.addr - n.addr % blockSize n

/-- `u32::from(net.broadcast())`: network address with the host bits set. -/
def bcast (n : Net) : ℕ := netAddr n + blockSize n - 1

/-- The stored address coincides with the network address. -/
def Aligned (n : Net) : Prop := blockSize n ∣ n.addr

/-- An address lies in the range covered by a network. -/
def inRange (n : Net) (x : ℕ) : Prop := netAddr n ≤ x ∧ x ≤ bcast n

/-- Some network of the list covers the address. -/
def coversAddr (l : List Net) (x : ℕ) : Prop := ∃ n ∈ l, inRange n x

/-- Comparator of `sort_and_dedup` (lib.rs:75-79): stored address, then
prefix length. -/
def netLe (a b : Net) : Prop :=
  a.addr < b.addr ∨ (a.addr = b.addr ∧ a.plen ≤ b.plen)

/-- Strict version of `netLe`: the order in which a sorted, deduplicated
sequence is strictly increasing. -/
def netLt (a b : Net) : Prop :=
  a.addr < b.addr ∨ (a.addr = b.addr ∧ a.plen < b.plen)

instance : DecidableRel netLe := fun a b => by unfold netLe; infer_instance

instance : DecidableRel netLt := fun a b => by unfold netLt; infer_instance

instance : IsTotal Net netLe where
  total a b := by
    unfold netLe
    rcases Nat.lt_trichotomy a.addr b.addr with h | h | h
    · exact Or.inl (Or.inl h)
    · rcases Nat.le_total a.plen b.plen with h2 | h2
      · exact Or.inl (Or.inr ⟨h, h2⟩)
      · exact Or.inr (Or.inr ⟨h.symm, h2⟩)
    · exact Or.inr (Or.inl h)

instance : IsTrans Net netLe where
  trans a b c hab hbc := by
    unfold netLe at *
    rcases hab with h1 | ⟨e1, p1⟩
    · rcases hbc with h2 | ⟨e2, _⟩
      · exact Or.inl (h1.trans h2)
      · exact Or.inl (e2 ▸ h1)
    · rcases hbc with h2 | ⟨e2, p2⟩
      · exact Or.inl (e1 ▸ h2)
      · exact Or.inr ⟨e1.trans e2, p1.trans p2⟩

/-- `Vec::dedup` (lib.rs:80, 90): drop an element equal to its predecessor,
keeping the first of each run. -/
def dedupCAux (a : Net) : List Net → List Net
  | [] => []
  | b :: rest => if a = b then dedupCAux a rest else b :: dedupCAux b rest

/-- `Vec::dedup` on a whole list. -/
def dedupC : List Net → List Net
  | [] => []
  | a :: rest => a :: dedupCAux a rest

/-- `sort_and_dedup` (lib.rs:84-91): stable sort by (stored address,
prefix length), then remove consecutive exact duplicates.  The comparator
is antisymmetric up to equality, so any sorted permutation is the stable
sort's output; insertion sort is used as the executable model. -/
def sortAndDedup (l : List Net) : List Net := dedupC (List.insertionSort netLe l)

/-- `network_covers_impl` (lib.rs:135-147). -/
def networkCovers (s n : Net) : Bool :=
  if s.plen > n.plen then false
  else decide (netAddr s ≤ netAddr n) && decide (bcast s ≥ bcast n)

/-- The scan of `remove_covered_nets_impl` (lib.rs:111-119): `last` is the
most recently accepted network; a candidate covered by it is dropped. -/
def rcAux (last : Net) : List Net → List Net
  | [] => []
  | n :: rest => if networkCovers last n then rcAux last rest else n :: rcAux n rest

/-- `remove_covered_nets_impl` (lib.rs:103-123).  `Vec::with_capacity(n)`
allocates capacity exactly `n` and at most `n` pushes occur, so
`removed_any = compacted.len() < capacity` is `compacted.len() < nets.len()`. -/
def removeCoveredNets : List Net → List Net × Bool
  | [] => ([], false)
  | n :: rest =>
    let comp := n :: rcAux n rest
    (comp, decide (comp.length < (n :: rest).length))

/-- `try_merge_exact_impl` (lib.rs:202-221).  All tests use the stored
addresses `a.addr()` / `b.addr()`, not the masked network addresses; the
final guard mirrors `Ipv4Net::new(..).ok()`, which only rejects a prefix
length above 32. -/
def tryMergeExact (a b : Net) : Option Net :=
  if a.plen ≠ b.plen ∨ a.plen = 0 then none
  else
    let block := 2 ^ (32 - a.plen)
    if ¬ a.addr % (block * 2) = 0 then none
    else if ¬ a.addr + block = b.addr then none
    else if a.plen - 1 ≤ 32 then some ⟨a.addr, a.plen - 1⟩ else none

/-- `network_address_count` (lib.rs:268-275). -/
def networkAddressCount (n : Net) : ℕ := 2 ^ (32 - n.plen)

/-- `network_overlap_impl` (lib.rs:288-302). -/
def networkOverlap (a b : Net) : ℕ :=
  let os := max (netAddr a) (netAddr b)
  let oe := min (bcast a) (bcast b)
  if os ≤ oe then oe - os + 1 else 0

/-- The descending search of `find_covering_supernet_impl` (lib.rs:250-257):
first `n` in `32, 31, ..., 0` whose block size reaches `rs`; the initial
value 32 is kept if no iteration breaks. -/
def findPrefixLenFrom (rs : ℕ) : ℕ → ℕ
  | 0 => if rs ≤ 2 ^ 32 then 0 else 32
  | n + 1 => if rs ≤ 2 ^ (32 - (n + 1)) then n + 1 else findPrefixLenFrom rs n

/-- `find_covering_supernet_impl` (lib.rs:235-264).  The range size
`max_end - min_start + 1` is computed in `u32`, so it wraps modulo `2^32`
(release profile; a debug build panics at the same spot), and the final
`as u32` cast of the aligned start also wraps. -/
def findCoveringSupernet (a b : Net) : Option Net :=
  let minStart := min (netAddr a) (netAddr b)
  let maxEnd := max (bcast a) (bcast b)
  let rangeSize := (maxEnd - minStart + 1) % 2 ^ 32
  let pl := findPrefixLenFrom rangeSize 32
  let block := 2 ^ (32 - pl)
  let alignedStart := minStart / block * block
  if pl ≤ 32 then some ⟨alignedStart % 2 ^ 32, pl⟩ else none

/-- `try_merge_with_tolerance` (lib.rs:154-188).  `saturating_sub` is `Nat`
subtraction; the tolerance is a `u64`, faithfully a `Nat` since it is only
compared. -/
def tryMergeWithTolerance (a b : Net) (tolerance : ℕ) : Option (Net × ℕ) :=
  match tryMergeExact a b with
  | some s => some (s, 0)
  | none =>
    if tolerance = 0 then none
    else
      match findCoveringSupernet a b with
      | none => none
      | some s =>
        let aAddrs := networkAddressCount a
        let bAddrs := networkAddressCount b
        let ov := networkOverlap a b
        let originalTotal := aAddrs + bAddrs - ov
        let superAddrs := networkAddressCount s
        let extraAddrs := superAddrs - originalTotal
        if extraAddrs ≤ tolerance then some (s, extraAddrs) else none

/-- One merge pass of `merge_ipv4_nets` (lib.rs:48-62): walk the list, on a
successful merge emit the supernet and advance by two, otherwise emit the
current element and advance by one; report whether any merge occurred. -/
def mergePass (t : ℕ) : List Net → List Net × Bool
  | [] => ([], false)
  | [a] => ([a], false)
  | a :: b :: rest =>
    match tryMergeWithTolerance a b t with
    | some s =>
      let r := mergePass t rest
      (s.1 :: r.1, true)
    | none =>
      let r := mergePass t (b :: rest)
      (a :: r.1, r.2)

/-- One round of the fixed-point loop (lib.rs:44-67): merge pass, then
`sort_and_dedup`, then `remove_covered_nets`; the flag is
`merge happened || entry dropped`. -/
def stepOnce (t : ℕ) (l : List Net) : List Net × Bool :=
  let m := mergePass t l
  let c := removeCoveredNets (sortAndDedup m.1)
  (c.1, m.2 || c.2)

/-- The `while changed` loop of `merge_ipv4_nets` (lib.rs:42-68), given
fuel.  A round that reports a change strictly shrinks the list
(`stepOnce_length_lt`), so fuel `l.length + 1` always reaches the round
with no change; `mergeLoop_fuel_irrelevant` proves the fuel bound exact. -/
def mergeLoop (t : ℕ) : ℕ → List Net → List Net
  | 0, l => l
  | fuel + 1, l =>
    let r := stepOnce t l
    if r.2 then mergeLoop t fuel r.1 else r.1

/-- `merge_ipv4_nets` (lib.rs:38-71). -/
def merge_ipv4_nets (nets : List Net) (tolerance : ℕ) : List Net :=
  let normalized := sortAndDedup nets
  mergeLoop tolerance (normalized.length + 1) normalized

/-- The Unicode `White_Space` property, the set `char::is_whitespace`
(hence Rust `str::trim`) strips: U+0009-U+000D, U+0020, U+0085, U+00A0,
U+1680, U+2000-U+200A, U+2028, U+2029, U+202F, U+205F, U+3000. -/
def isWs (c : Char) : Bool :=
  (decide (0x09 ≤ c.toNat) && decide (c.toNat ≤ 0x0D)) || c.toNat == 0x20 ||
    c.toNat == 0x85 || c.toNat == 0xA0 || c.toNat == 0x1680 ||
    (decide (0x2000 ≤ c.toNat) && decide (c.toNat ≤ 0x200A)) ||
    c.toNat == 0x2028 || c.toNat == 0x2029 || c.toNat == 0x202F ||
    c.toNat == 0x205F || c.toNat == 0x3000

/-- `str::trim`: drop leading and trailing Unicode whitespace of a line,
modelled over a line as a character list. -/
def trimLine (l : List Char) : List Char :=
  ((l.dropWhile isWs).reverse.dropWhile isWs).reverse

/-- `parse_ipv4_nets` (lib.rs:9-25), over an already line-split input (the
`BufRead::lines` collaborator, which strips the newline itself) and an
abstract CIDR parser `p` standing for `str::parse::<Ipv4Net>` of the
external `ipnet` crate.  `idx` is the 0-based line index; errors carry the
1-based line number of the offending line. -/
def parse_ipv4_nets (p : List Char → Option Net) :
    List (List Char) → ℕ → Except ℕ (List Net)
  | [], _ => Except.ok []
  | line :: rest, idx =>
    let t := trimLine line
    if t.isEmpty then parse_ipv4_nets p rest (idx + 1)
    else
      match p t with
      | some n => (parse_ipv4_nets p rest (idx + 1)).map (fun ns => n :: ns)
      | none => Except.error (idx + 1)

/-- The range of addresses of `a` is wholly contained in the range of `b`. -/
def rangeSub (a b : Net) : Prop := netAddr b ≤ netAddr a ∧ bcast a ≤ bcast b

/-- The ordering the specification claims for Compactor output: strictly
increasing network address, ties broken by increasing prefix length. -/
def specLt (a b : Net) : Prop :=
  netAddr a < netAddr b ∨ (netAddr a = netAddr b ∧ a.plen < b.plen)

instance : DecidablePred Valid := fun n => by unfold Valid; infer_instance

instance : DecidablePred Aligned := fun n => by unfold Aligned; infer_instance

instance (n : Net) (x : ℕ) : Decidable (inRange n x) := by unfold inRange; infer_instance

instance (l : List Net) (x : ℕ) : Decidable (coversAddr l x) := by
  unfold coversAddr; infer_instance

instance (a b : Net) : Decidable (rangeSub a b) := by unfold rangeSub; infer_instance

instance : DecidableRel specLt := fun a b => by unfold specLt; infer_instance

instance : IsTrans Net netLt where
  trans a b c hab hbc := by
    unfold netLt at *
    rcases hab with h1 | ⟨e1, p1⟩
    · rcases hbc with h2 | ⟨e2, _⟩
      · exact Or.inl (h1.trans h2)
      · exact Or.inl (e2 ▸ h1)
    · rcases hbc with h2 | ⟨e2, p2⟩
      · exact Or.inl (e1 ▸ h2)
      · exact Or.inr ⟨e1.trans e2, p1.trans p2⟩

theorem netLe_of_netLt {a b : Net} (h : netLt a b) : netLe a b := by
  rcases h with h | ⟨e, p⟩
  · exact Or.inl h
  · exact Or.inr ⟨e, p.le⟩

theorem netLt_of_netLe_ne {a b : Net} (h : netLe a b) (hne : a ≠ b) : netLt a b := by
  rcases h with h | ⟨e, p⟩
  · exact Or.inl h
  · rcases Nat.lt_or_ge a.plen b.plen with hp | hp
    · exact Or.inr ⟨e, hp⟩
    · have hpe : a.plen = b.plen := Nat.le_antisymm p hp
      exact absurd (show a = b by
        cases a; cases b
        simp only [Net.mk.injEq]
        exact ⟨e, hpe⟩) hne

theorem ne_of_netLt {a b : Net} (h : netLt a b) : a ≠ b := by
  rintro rfl
  rcases h with h | ⟨_, h⟩ <;> exact absurd h (lt_irrefl _)

theorem dedupCAux_sublist (a : Net) (l : List Net) : List.Sublist (dedupCAux a l) l := by
  induction l generalizing a with
  | nil => simp [dedupCAux]
  | cons b rest ih =>
    by_cases h : a = b
    · simpa [dedupCAux, h] using (ih b).trans (List.sublist_cons_self b rest)
    · simpa [dedupCAux, h] using (ih b).cons₂ b

theorem dedupC_sublist (l : List Net) : List.Sublist (dedupC l) l := by
  cases l with
  | nil => simp [dedupC]
  | cons a rest => simpa [dedupC] using (dedupCAux_sublist a rest).cons₂ a

theorem mem_dedupCAux_of_mem {n : Net} {l : List Net} (a : Net) (hne : n ≠ a)
    (h : n ∈ l) : n ∈ dedupCAux a l := by
  induction l generalizing a with
  | nil => cases h
  | cons b rest ih =>
    by_cases hab : a = b
    · subst hab
      rcases List.mem_cons.mp h with rfl | h2
      · exact absurd rfl hne
      · simpa [dedupCAux] using ih a hne h2
    · rcases List.mem_cons.mp h with rfl | h2
      · simp [dedupCAux, hab]
      · by_cases hnb : n = b
        · simp [dedupCAux, hab, hnb]
        · simp only [dedupCAux, hab, if_false]
          exact List.mem_cons.mpr (Or.inr (ih b hnb h2))

theorem mem_dedupC {n : Net} {l : List Net} : n ∈ dedupC l ↔ n ∈ l := by
  constructor
  · exact fun h => (dedupC_sublist l).mem h
  · intro h
    cases l with
    | nil => cases h
    | cons a rest =>
      rcases List.mem_cons.mp h with rfl | h2
      · simp [dedupC]
      · by_cases hna : n = a
        · simp [dedupC, hna]
        · exact List.mem_cons.mpr (Or.inr (mem_dedupCAux_of_mem a hna h2))

theorem mem_sortAndDedup {n : Net} {l : List Net} : n ∈ sortAndDedup l ↔ n ∈ l := by
  unfold sortAndDedup
  rw [mem_dedupC]
  exact (List.perm_insertionSort netLe l).mem_iff

theorem sortAndDedup_length_le (l : List Net) : (sortAndDedup l).length ≤ l.length := by
  unfold sortAndDedup
  calc (dedupC (List.insertionSort netLe l)).length
      ≤ (List.insertionSort netLe l).length := (dedupC_sublist _).length_le
    _ = l.length := List.length_insertionSort netLe l

theorem dedupCAux_chain_ne (a : Net) (l : List Net) :
    List.Chain' (fun x y => x ≠ y) (a :: dedupCAux a l) := by
  induction l generalizing a with
  | nil => simp [dedupCAux]
  | cons b rest ih =>
    by_cases h : a = b
    · simpa [dedupCAux, h] using ih b
    · have hb := ih b
      cases hd : dedupCAux b rest with
      | nil => simp [dedupCAux, h, hd]
      | cons c cs =>
        rw [hd] at hb
        simp only [dedupCAux, h, if_false, hd]
        exact List.chain'_cons.mpr ⟨h, hb⟩

theorem chain'_and {R S : Net → Net → Prop} : ∀ {l : List Net},
    List.Chain' R l → List.Chain' S l → List.Chain' (fun a b => R a b ∧ S a b) l
  | [], _, _ => List.chain'_nil
  | [_], _, _ => List.chain'_singleton _
  | _ :: b :: l, hr, hs => by
    rcases List.chain'_cons.mp hr with ⟨hr1, hr2⟩
    rcases List.chain'_cons.mp hs with ⟨hs1, hs2⟩
    exact List.chain'_cons.mpr ⟨⟨hr1, hs1⟩, chain'_and hr2 hs2⟩

theorem sortAndDedup_pairwise (l : List Net) :
    List.Pairwise netLt (sortAndDedup l) := by
  have hsorted : List.Pairwise netLe (List.insertionSort netLe l) :=
    List.sorted_insertionSort netLe l
  have hle : List.Pairwise netLe (sortAndDedup l) :=
    hsorted.sublist (dedupC_sublist _)
  have hne : List.Chain' (fun x y => x ≠ y) (sortAndDedup l) := by
    unfold sortAndDedup
    cases h : List.insertionSort netLe l with
    | nil => simp [dedupC]
    | cons a rest => simpa [dedupC] using dedupCAux_chain_ne a rest
  have hch : List.Chain' netLt (sortAndDedup l) :=
    (chain'_and hle.chain' hne).imp fun a b h => netLt_of_netLe_ne h.1 h.2

  exact List.chain'_iff_pairwise.mp hch

theorem dedupCAux_eq_self {a : Net} {l : List Net}
    (h : List.Chain' (fun x y => x ≠ y) (a :: l)) : dedupCAux a l = l := by
  induction l generalizing a with
  | nil => simp [dedupCAux]
  | cons b rest ih =>
    rcases List.chain'_cons.mp h with ⟨hab, hrest⟩
    simp [dedupCAux, hab, ih hrest]

theorem dedupC_eq_self {l : List Net}
    (h : List.Chain' (fun x y => x ≠ y) l) : dedupC l = l := by
  cases l with
  | nil => simp [dedupC]
  | cons a rest => simp [dedupC, dedupCAux_eq_self h]

theorem sortAndDedup_eq_self {l : List Net} (h : List.Pairwise netLt l) :
    sortAndDedup l = l := by
  unfold sortAndDedup
  have hsorted : List.Sorted netLe l := h.imp netLe_of_netLt
  rw [hsorted.insertionSort_eq]
  exact dedupC_eq_self (h.imp ne_of_netLt).chain'


theorem rcAux_sublist (last : Net) (l : List Net) : List.Sublist (rcAux last l) l := by
  induction l generalizing last with
  | nil => simp [rcAux]
  | cons n rest ih =>
    by_cases h : networkCovers last n
    · simpa [rcAux, h] using (ih last).trans (List.sublist_cons_self n rest)
    · simpa [rcAux, h] using (ih n).cons₂ n

theorem removeCoveredNets_sublist (l : List Net) :
    List.Sublist (removeCoveredNets l).1 l := by
  cases l with
  | nil => simp [removeCoveredNets]
  | cons n rest => simpa [removeCoveredNets] using (rcAux_sublist n rest).cons₂ n

theorem removeCoveredNets_length_le (l : List Net) :
    (removeCoveredNets l).1.length ≤ l.length :=
  (removeCoveredNets_sublist l).length_le

theorem removeCoveredNets_snd_true {l : List Net}
    (h : (removeCoveredNets l).2 = true) :
    (removeCoveredNets l).1.length < l.length := by
  cases l with
  | nil => simp [removeCoveredNets] at h
  | cons n rest =>
    simp only [removeCoveredNets, decide_eq_true_iff] at h
    exact h

theorem removeCoveredNets_snd_false {l : List Net}
    (h : (removeCoveredNets l).2 = false) : (removeCoveredNets l).1 = l := by
  apply (removeCoveredNets_sublist l).eq_of_length
  cases l with
  | nil => simp [removeCoveredNets]
  | cons n rest =>
    simp only [removeCoveredNets, decide_eq_false_iff_not, Nat.not_lt] at h
    exact Nat.le_antisymm (removeCoveredNets_length_le (n :: rest)) h

theorem mergePass_length_le (t : ℕ) (l : List Net) :
    (mergePass t l).1.length ≤ l.length := by
  induction l using mergePass.induct t with
  | case1 => simp [mergePass]
  | case2 a => simp [mergePass]
  | case3 a b rest s hs ih =>
    simp only [mergePass, hs, List.length_cons]
    omega
  | case4 a b rest hn ih =>
    simp only [mergePass, hn, List.length_cons]
    simp only [List.length_cons] at ih
    omega

theorem mergePass_length_lt (t : ℕ) (l : List Net)
    (h : (mergePass t l).2 = true) : (mergePass t l).1.length < l.length := by
  induction l using mergePass.induct t with
  | case1 => simp [mergePass] at h
  | case2 a => simp [mergePass] at h
  | case3 a b rest s hs ih =>
    have := mergePass_length_le t rest
    simp only [mergePass, hs, List.length_cons]
    omega
  | case4 a b rest hn ih =>
    simp only [mergePass, hn, List.length_cons]
    simp only [mergePass, hn] at h
    have := ih h
    simp only [List.length_cons] at this
    omega

theorem mergePass_id (t : ℕ) (l : List Net)
    (h : (mergePass t l).2 = false) : (mergePass t l).1 = l := by
  induction l using mergePass.induct t with
  | case1 => simp [mergePass]
  | case2 a => simp [mergePass]
  | case3 a b rest s hs ih => simp [mergePass, hs] at h
  | case4 a b rest hn ih =>
    simp only [mergePass, hn] at h ⊢
    simp [ih h]

theorem mergePass_none_chain (t : ℕ) (l : List Net)
    (h : (mergePass t l).2 = false) :
    List.Chain' (fun a b => tryMergeWithTolerance a b t = none) l := by
  induction l using mergePass.induct t with
  | case1 => simp
  | case2 a => simp
  | case3 a b rest s hs ih => simp [mergePass, hs] at h
  | case4 a b rest hn ih =>
    simp only [mergePass, hn] at h
    exact List.chain'_cons.mpr ⟨hn, ih h⟩

theorem stepOnce_length_lt {t : ℕ} {l : List Net}
    (h : (stepOnce t l).2 = true) : (stepOnce t l).1.length < l.length := by
  simp only [stepOnce, Bool.or_eq_true] at h ⊢
  rcases h with h | h
  · calc (removeCoveredNets (sortAndDedup (mergePass t l).1)).1.length
        ≤ (sortAndDedup (mergePass t l).1).length := removeCoveredNets_length_le _
      _ ≤ (mergePass t l).1.length := sortAndDedup_length_le _
      _ < l.length := mergePass_length_lt t l h
  · calc (removeCoveredNets (sortAndDedup (mergePass t l).1)).1.length
        < (sortAndDedup (mergePass t l).1).length := removeCoveredNets_snd_true h
      _ ≤ (mergePass t l).1.length := sortAndDedup_length_le _
      _ ≤ l.length := mergePass_length_le t l

theorem stepOnce_pairwise (t : ℕ) (l : List Net) :
    List.Pairwise netLt (stepOnce t l).1 :=
  (sortAndDedup_pairwise (mergePass t l).1).sublist
    (removeCoveredNets_sublist (sortAndDedup (mergePass t l).1))

theorem stepOnce_false_eq {t : ℕ} {l : List Net} (hp : List.Pairwise netLt l)
    (h : (stepOnce t l).2 = false) : (stepOnce t l).1 = l := by
  simp only [stepOnce, Bool.or_eq_false_iff] at h ⊢
  rw [mergePass_id t l h.1, sortAndDedup_eq_self hp]
  rw [mergePass_id t l h.1, sortAndDedup_eq_self hp] at h
  exact removeCoveredNets_snd_false h.2

theorem mergeLoop_fix (t : ℕ) : ∀ (fuel : ℕ) (l : List Net),
    List.Pairwise netLt l → l.length < fuel →
    stepOnce t (mergeLoop t fuel l) = (mergeLoop t fuel l, false) ∧
      List.Pairwise netLt (mergeLoop t fuel l)
  | 0, l, _, hf => absurd hf (Nat.not_lt_zero _)
  | fuel + 1, l, hp, hf => by
    by_cases h : (stepOnce t l).2
    · have hlt : (stepOnce t l).1.length < fuel :=
        Nat.lt_of_lt_of_le (stepOnce_length_lt h) (Nat.lt_succ_iff.mp hf)
      have := mergeLoop_fix t fuel (stepOnce t l).1 (stepOnce_pairwise t l) hlt
      simpa [mergeLoop, h] using this
    · have hfalse : (stepOnce t l).2 = false := Bool.eq_false_iff.mpr h
      have heq : (stepOnce t l).1 = l := stepOnce_false_eq hp hfalse
      simp only [mergeLoop, hfalse, if_neg (Bool.false_ne_true)]
      rw [heq]
      exact ⟨Prod.ext heq hfalse, hp⟩

theorem merge_fix (x : List Net) (t : ℕ) :
    stepOnce t (merge_ipv4_nets x t) = (merge_ipv4_nets x t, false) ∧
      List.Pairwise netLt (merge_ipv4_nets x t) := by
  unfold merge_ipv4_nets
  exact mergeLoop_fix t ((sortAndDedup x).length + 1) (sortAndDedup x)
    (sortAndDedup_pairwise x) (Nat.lt_succ_self _)

theorem mergeLoop_fuel_irrelevant (t : ℕ) : ∀ (f g : ℕ) (l : List Net),
    l.length < f → l.length < g → mergeLoop t f l = mergeLoop t g l
  | 0, _, l, hf, _ => absurd hf (Nat.not_lt_zero _)
  | _ + 1, 0, l, _, hg => absurd hg (Nat.not_lt_zero _)
  | f + 1, g + 1, l, hf, hg => by
    by_cases h : (stepOnce t l).2
    · have hlt := stepOnce_length_lt h
      have h1 : (stepOnce t l).1.length < f := Nat.lt_of_lt_of_le hlt (Nat.lt_succ_iff.mp hf)
      have h2 : (stepOnce t l).1.length < g := Nat.lt_of_lt_of_le hlt (Nat.lt_succ_iff.mp hg)
      simpa [mergeLoop, h] using mergeLoop_fuel_irrelevant t f g (stepOnce t l).1 h1 h2
    · simp [mergeLoop, Bool.eq_false_iff.mpr h]

/-- C5: `merge_ipv4_nets` terminates on every input and tolerance: a round
of the fixed-point loop that reports a change (a merge happened or the
coverage eliminator dropped an entry) strictly decreases the length of the
working sequence, so the loop reaches the first round with no change within
the provided fuel, and any sufficient fuel yields the same result. -/
theorem merge_terminates (x : List Net) (t : ℕ) :
    ((stepOnce t (sortAndDedup x)).2 = true →
      (stepOnce t (sortAndDedup x)).1.length < (sortAndDedup x).length)
    ∧ ∀ fuel, (sortAndDedup x).length < fuel →
        mergeLoop t fuel (sortAndDedup x) = merge_ipv4_nets x t := by
  constructor
  · exact fun h => stepOnce_length_lt h
  · intro fuel hf
    unfold merge_ipv4_nets
    exact mergeLoop_fuel_irrelevant t fuel _ _ hf (Nat.lt_succ_self _)

theorem merge_terminates_witness :
    ((stepOnce 0 (sortAndDedup [⟨167772160, 24⟩, ⟨167772416, 24⟩])).1.length
        < (sortAndDedup [⟨167772160, 24⟩, ⟨167772416, 24⟩]).length)
    ∧ mergeLoop 0 5 (sortAndDedup [⟨167772160, 24⟩, ⟨167772416, 24⟩])
        = merge_ipv4_nets [⟨167772160, 24⟩, ⟨167772416, 24⟩] 0 :=
  ⟨(merge_terminates [⟨167772160, 24⟩, ⟨167772416, 24⟩] 0).1 (by decide),
   (merge_terminates [⟨167772160, 24⟩, ⟨167772416, 24⟩] 0).2 5 (by decide)⟩

/-- C6: compaction is idempotent: running `merge_ipv4_nets` on its own
output, at the same tolerance, returns the output unchanged — for every
input list and every tolerance. -/
theorem merge_idempotent (x : List Net) (t : ℕ) :
    merge_ipv4_nets (merge_ipv4_nets x t) t = merge_ipv4_nets x t := by
  obtain ⟨hfix, hp⟩ := merge_fix x t
  conv_lhs => rw [merge_ipv4_nets]
  rw [sortAndDedup_eq_self hp]
  simp [mergeLoop, hfix]

/-- C2 (code bug): on the valid input `[0.0.0.0/2, 192.0.0.0/2]` with
tolerance 1, the range computation `max_end - min_start + 1` inside
`find_covering_supernet` equals `2^32`, which overflows `u32` (wrapping to
0 in release builds, panicking in debug builds); the wrapped value makes
the whole merge collapse the pair to `0.0.0.0/32`. -/
theorem range_overflow_bug :
    merge_ipv4_nets [⟨0, 2⟩, ⟨3221225472, 2⟩] 1 = [⟨0, 32⟩]
    ∧ max (bcast ⟨0, 2⟩) (bcast ⟨3221225472, 2⟩)
        - min (netAddr ⟨0, 2⟩) (netAddr ⟨3221225472, 2⟩) + 1 = 2 ^ 32 := by
  constructor
  · decide
  · decide

/-- C3 (code bug): for `a = 0.0.0.128/25`, `b = 0.0.1.0/25`,
`find_covering_supernet` returns `0.0.0.0/24`, whose broadcast address
0.0.0.255 is below `b`'s broadcast address 0.0.1.127 — the returned
"covering" supernet does not cover `b`. -/
theorem covering_supernet_bug :
    findCoveringSupernet ⟨128, 25⟩ ⟨256, 25⟩ = some ⟨0, 24⟩
    ∧ bcast ⟨0, 24⟩ < max (bcast ⟨128, 25⟩) (bcast ⟨256, 25⟩) := by
  constructor
  · decide
  · decide

/-- C7 (code bug): output cardinality is not monotone in the tolerance: on
`[0.0.0.96/27, 0.0.0.128/28, 0.0.0.152/29]` tolerance 8 yields one network
but the larger tolerance 16 yields two.  (The tolerance-8 run goes through
a `find_covering_supernet` result that fails to cover its second argument,
the same slip as in `covering_supernet_bug`.) -/
theorem tolerance_monotonicity_bug :
    merge_ipv4_nets [⟨96, 27⟩, ⟨128, 28⟩, ⟨152, 29⟩] 8 = [⟨64, 26⟩]
    ∧ merge_ipv4_nets [⟨96, 27⟩, ⟨128, 28⟩, ⟨152, 29⟩] 16 = [⟨64, 26⟩, ⟨152, 29⟩]
    ∧ (merge_ipv4_nets [⟨96, 27⟩, ⟨128, 28⟩, ⟨152, 29⟩] 8).length
        < (merge_ipv4_nets [⟨96, 27⟩, ⟨128, 28⟩, ⟨152, 29⟩] 16).length := by
  refine ⟨by decide, by decide, by decide⟩

theorem blockSize_pos (n : Net) : 0 < blockSize n := pow_pos (by norm_num) _

theorem netAddr_le_addr (n : Net) : netAddr n ≤ n.addr := Nat.sub_le _ _

theorem netAddr_le_bcast (n : Net) : netAddr n ≤ bcast n := by
  have := blockSize_pos n
  unfold bcast
  omega

theorem netAddr_eq_addr {n : Net} (h : Aligned n) : netAddr n = n.addr := by
  unfold netAddr
  rw [Nat.mod_eq_zero_of_dvd h, Nat.sub_zero]

theorem blockSize_dvd_netAddr (n : Net) : blockSize n ∣ netAddr n := by
  refine ⟨n.addr / blockSize n, ?_⟩
  have := Nat.mod_add_div n.addr (blockSize n)
  unfold netAddr
  omega

theorem coversAddr_cons {n : Net} {l : List Net} {x : ℕ} :
    coversAddr (n :: l) x ↔ inRange n x ∨ coversAddr l x := by
  simp [coversAddr]

theorem coversAddr_nil {x : ℕ} : ¬ coversAddr [] x := by simp [coversAddr]

theorem tryMergeExact_eq_some {a b s : Net} (h : tryMergeExact a b = some s) :
    a.plen = b.plen ∧ 0 < a.plen ∧ a.addr % (2 ^ (32 - a.plen) * 2) = 0 ∧
      a.addr + 2 ^ (32 - a.plen) = b.addr ∧ s = ⟨a.addr, a.plen - 1⟩ := by
  simp only [tryMergeExact] at h
  split_ifs at h with h1 h2 h3 h4
  all_goals try cases h
  push_neg at h1 h2 h3
  exact ⟨h1.1, Nat.pos_of_ne_zero h1.2, h2, h3, rfl⟩

theorem tryMergeExact_range {a b s : Net} (ha : Valid a) (_hb : Valid b)
    (h : tryMergeExact a b = some s) :
    Valid s ∧ ∀ x, (inRange s x ↔ inRange a x ∨ inRange b x) := by
  obtain ⟨hpe, hpos, hmod, hadj, rfl⟩ := tryMergeExact_eq_some h
  have hp32 : a.plen ≤ 32 := ha.2
  have hBs : blockSize (⟨a.addr, a.plen - 1⟩ : Net) = 2 ^ (32 - a.plen) * 2 := by
    show 2 ^ (32 - (a.plen - 1)) = 2 ^ (32 - a.plen) * 2
    have : 32 - (a.plen - 1) = (32 - a.plen) + 1 := by omega
    rw [this, pow_succ]
  have hdvd : 2 ^ (32 - a.plen) * 2 ∣ a.addr := Nat.dvd_of_mod_eq_zero hmod
  have hsa : netAddr (⟨a.addr, a.plen - 1⟩ : Net) = a.addr := by
    apply netAddr_eq_addr
    unfold Aligned
    rw [hBs]
    exact hdvd
  have haa : netAddr a = a.addr := by
    apply netAddr_eq_addr
    exact dvd_trans (Dvd.intro 2 rfl) hdvd
  have hBb : blockSize b = 2 ^ (32 - a.plen) := by
    unfold blockSize
    rw [hpe]
  have hbb : netAddr b = b.addr := by
    apply netAddr_eq_addr
    unfold Aligned
    rw [hBb, ← hadj]
    exact Dvd.dvd.add (dvd_trans (Dvd.intro 2 rfl) hdvd) dvd_rfl
  constructor
  · exact ⟨ha.1, show a.plen - 1 ≤ 32 by omega⟩
  · intro x
    have hBa : blockSize a = 2 ^ (32 - a.plen) := rfl
    have hpos2 : 0 < 2 ^ (32 - a.plen) := by positivity
    unfold inRange bcast
    rw [hsa, haa, hbb, hBs, hBa, hBb, ← hadj]
    omega

theorem tryMergeWithTolerance_zero (a b : Net) :
    tryMergeWithTolerance a b 0 = (tryMergeExact a b).map (fun s => (s, 0)) := by
  unfold tryMergeWithTolerance
  cases h : tryMergeExact a b <;> simp

theorem mergePass_zero_covers (l : List Net) (hv : ∀ n ∈ l, Valid n) :
    (∀ n ∈ (mergePass 0 l).1, Valid n) ∧
      ∀ x, (coversAddr (mergePass 0 l).1 x ↔ coversAddr l x) := by
  induction l using mergePass.induct 0 with
  | case1 => exact ⟨hv, fun x => Iff.rfl⟩
  | case2 a => exact ⟨hv, fun x => Iff.rfl⟩
  | case3 a b rest s hs ih =>
    rw [tryMergeWithTolerance_zero, Option.map_eq_some'] at hs
    obtain ⟨s1, hex, hs1⟩ := hs
    subst hs1
    have ha : Valid a := hv a (by simp)
    have hb : Valid b := hv b (by simp)
    obtain ⟨hvs, hrange⟩ := tryMergeExact_range ha hb hex
    have hvrest : ∀ n ∈ rest, Valid n := fun n hn => hv n (by simp [hn])
    obtain ⟨ihv, ihc⟩ := ih hvrest
    constructor
    · intro n hn
      simp only [mergePass, hex, tryMergeWithTolerance_zero, Option.map_some'] at hn
      rcases List.mem_cons.mp hn with rfl | hn2
      · exact hvs
      · exact ihv n hn2
    · intro x
      simp only [mergePass, hex, tryMergeWithTolerance_zero, Option.map_some']
      rw [coversAddr_cons, coversAddr_cons, coversAddr_cons, hrange x, ihc x]
      tauto
  | case4 a b rest hn ih =>
    have hvrest : ∀ n ∈ b :: rest, Valid n := fun n h => hv n (by simp_all)
    obtain ⟨ihv, ihc⟩ := ih hvrest
    constructor
    · intro n hmem
      simp only [mergePass, hn] at hmem
      rcases List.mem_cons.mp hmem with rfl | h2
      · exact hv n (by simp)
      · exact ihv n h2
    · intro x
      simp only [mergePass, hn]
      rw [coversAddr_cons, coversAddr_cons, ihc x]

theorem networkCovers_sound {s n : Net} (h : networkCovers s n = true) {x : ℕ}
    (hx : inRange n x) : inRange s x := by
  unfold networkCovers at h
  split_ifs at h
  simp only [Bool.and_eq_true, decide_eq_true_iff, ge_iff_le] at h
  unfold inRange at *
  omega

theorem rcAux_covers (x : ℕ) : ∀ (l : List Net) (last : Net),
    (inRange last x ∨ coversAddr (rcAux last l) x) ↔
      (inRange last x ∨ coversAddr l x)
  | [], last => Iff.rfl
  | n :: rest, last => by
    by_cases h : networkCovers last n
    · simp only [rcAux, h, if_true]
      rw [rcAux_covers x rest last, coversAddr_cons]
      constructor
      · tauto
      · rintro (h1 | h1 | h1)
        · exact Or.inl h1
        · exact Or.inl (networkCovers_sound h h1)
        · exact Or.inr h1
    · rw [Bool.not_eq_true] at h
      simp only [rcAux, h, Bool.false_eq_true, if_false]
      rw [coversAddr_cons, coversAddr_cons]
      have := rcAux_covers x rest n
      tauto

theorem removeCoveredNets_covers (l : List Net) (x : ℕ) :
    coversAddr (removeCoveredNets l).1 x ↔ coversAddr l x := by
  cases l with
  | nil => exact Iff.rfl
  | cons n rest =>
    show coversAddr (n :: rcAux n rest) x ↔ _
    rw [coversAddr_cons, coversAddr_cons]
    exact rcAux_covers x rest n

theorem sortAndDedup_covers (l : List Net) (x : ℕ) :
    coversAddr (sortAndDedup l) x ↔ coversAddr l x := by
  unfold coversAddr
  constructor
  · rintro ⟨n, hn, hr⟩
    exact ⟨n, mem_sortAndDedup.mp hn, hr⟩
  · rintro ⟨n, hn, hr⟩
    exact ⟨n, mem_sortAndDedup.mpr hn, hr⟩

theorem stepOnce_zero_covers (l : List Net) (hv : ∀ n ∈ l, Valid n) :
    (∀ n ∈ (stepOnce 0 l).1, Valid n) ∧
      ∀ x, (coversAddr (stepOnce 0 l).1 x ↔ coversAddr l x) := by
  obtain ⟨hpv, hpc⟩ := mergePass_zero_covers l hv
  constructor
  · intro n hn
    apply hpv
    apply mem_sortAndDedup.mp
    exact (removeCoveredNets_sublist (sortAndDedup (mergePass 0 l).1)).mem hn
  · intro x
    show coversAddr (removeCoveredNets (sortAndDedup (mergePass 0 l).1)).1 x ↔ _
    rw [removeCoveredNets_covers, sortAndDedup_covers, hpc x]

theorem mergeLoop_zero_covers : ∀ (fuel : ℕ) (l : List Net),
    (∀ n ∈ l, Valid n) →
    ∀ x, (coversAddr (mergeLoop 0 fuel l) x ↔ coversAddr l x)
  | 0, l, _, x => Iff.rfl
  | fuel + 1, l, hv, x => by
    obtain ⟨hsv, hsc⟩ := stepOnce_zero_covers l hv
    by_cases h : (stepOnce 0 l).2
    · simp only [mergeLoop, h, if_true]
      rw [mergeLoop_zero_covers fuel (stepOnce 0 l).1 hsv x, hsc x]
    · simp only [mergeLoop, Bool.eq_false_iff.mpr h, if_neg Bool.false_ne_true]
      exact hsc x

/-- C1: coverage preservation at tolerance 0: for a list of valid networks,
an address is covered by the output of `merge_ipv4_nets nets 0` exactly when
it is covered by the input — no address is gained and none is lost. -/
theorem coverage_preservation (x : List Net) (hv : ∀ n ∈ x, Valid n) (addr : ℕ) :
    coversAddr (merge_ipv4_nets x 0) addr ↔ coversAddr x addr := by
  unfold merge_ipv4_nets
  rw [mergeLoop_zero_covers _ (sortAndDedup x)
    (fun n hn => hv n (mem_sortAndDedup.mp hn)) addr]
  exact sortAndDedup_covers x addr

theorem coverage_preservation_witness :
    (∀ n ∈ [(⟨167772160, 24⟩ : Net), ⟨167772416, 24⟩], Valid n)
    ∧ (coversAddr (merge_ipv4_nets [⟨167772160, 24⟩, ⟨167772416, 24⟩] 0) 167772161
        ↔ coversAddr [(⟨167772160, 24⟩ : Net), ⟨167772416, 24⟩] 167772161) :=
  ⟨by decide, coverage_preservation [⟨167772160, 24⟩, ⟨167772416, 24⟩] (by decide) 167772161⟩

theorem findPrefixLenFrom_le (rs : ℕ) : ∀ k, k ≤ 32 → findPrefixLenFrom rs k ≤ 32
  | 0, _ => by
    unfold findPrefixLenFrom
    split <;> omega
  | k + 1, hk => by
    unfold findPrefixLenFrom
    split
    · exact hk
    · exact findPrefixLenFrom_le rs k (by omega)

theorem findCoveringSupernet_validAligned {a b s : Net}
    (h : findCoveringSupernet a b = some s) : Valid s ∧ Aligned s := by
  simp only [findCoveringSupernet] at h
  split_ifs at h with hpl
  cases h
  refine ⟨⟨Nat.mod_lt _ (by positivity), hpl⟩, ?_⟩
  show (2 : ℕ) ^ (32 - _) ∣ _ % 2 ^ 32
  refine (Nat.dvd_mod_iff (pow_dvd_pow 2 (by omega))).mpr ?_
  exact dvd_mul_left _ _

theorem tryMergeExact_validAligned {a b s : Net} (ha : Valid a)
    (h : tryMergeExact a b = some s) : Valid s ∧ Aligned s := by
  obtain ⟨hpe, hpos, hmod, hadj, rfl⟩ := tryMergeExact_eq_some h
  have hdvd : 2 ^ (32 - a.plen) * 2 ∣ a.addr := Nat.dvd_of_mod_eq_zero hmod
  refine ⟨⟨ha.1, show a.plen - 1 ≤ 32 by have := ha.2; omega⟩, ?_⟩
  show 2 ^ (32 - (a.plen - 1)) ∣ a.addr
  have h1 : 32 - (a.plen - 1) = (32 - a.plen) + 1 := by have := ha.2; omega
  rw [h1, pow_succ]
  exact hdvd

theorem tryMergeWithTolerance_validAligned {a b : Net} {t : ℕ} {s : Net × ℕ}
    (ha : Valid a) (h : tryMergeWithTolerance a b t = some s) :
    Valid s.1 ∧ Aligned s.1 := by
  simp only [tryMergeWithTolerance] at h
  cases hex : tryMergeExact a b with
  | some e =>
    simp only [hex, Option.some.injEq] at h
    rw [← h]
    exact tryMergeExact_validAligned ha hex
  | none =>
    simp only [hex] at h
    split_ifs at h with ht
    cases hcov : findCoveringSupernet a b with
    | none =>
      simp only [hcov] at h
      exact Option.noConfusion h
    | some e =>
      simp only [hcov] at h
      split_ifs at h with hext
      simp only [Option.some.injEq] at h
      rw [← h]
      exact findCoveringSupernet_validAligned hcov

theorem mergePass_validAligned (t : ℕ) (l : List Net)
    (hv : ∀ n ∈ l, Valid n ∧ Aligned n) :
    ∀ n ∈ (mergePass t l).1, Valid n ∧ Aligned n := by
  induction l using mergePass.induct t with
  | case1 => exact hv
  | case2 a => exact hv
  | case3 a b rest s hs ih =>
    intro n hn
    simp only [mergePass, hs] at hn
    rcases List.mem_cons.mp hn with rfl | hn2
    · exact tryMergeWithTolerance_validAligned (hv a (by simp)).1 hs
    · exact ih (fun m hm => hv m (by simp [hm])) n hn2
  | case4 a b rest hmerge ih =>
    intro n hn
    simp only [mergePass, hmerge] at hn
    rcases List.mem_cons.mp hn with rfl | hn2
    · exact hv n (by simp)
    · exact ih (fun m hm => hv m (by simp_all)) n hn2

theorem stepOnce_validAligned (t : ℕ) (l : List Net)
    (hv : ∀ n ∈ l, Valid n ∧ Aligned n) :
    ∀ n ∈ (stepOnce t l).1, Valid n ∧ Aligned n := by
  intro n hn
  apply mergePass_validAligned t l hv
  apply mem_sortAndDedup.mp
  exact (removeCoveredNets_sublist (sortAndDedup (mergePass t l).1)).mem hn

theorem mergeLoop_validAligned (t : ℕ) : ∀ (fuel : ℕ) (l : List Net),
    (∀ n ∈ l, Valid n ∧ Aligned n) →
    ∀ n ∈ mergeLoop t fuel l, Valid n ∧ Aligned n
  | 0, _, hv => hv
  | fuel + 1, l, hv => by
    by_cases h : (stepOnce t l).2
    · simp only [mergeLoop, h, if_true]
      exact mergeLoop_validAligned t fuel (stepOnce t l).1 (stepOnce_validAligned t l hv)
    · simp only [mergeLoop, Bool.eq_false_iff.mpr h, if_neg Bool.false_ne_true]
      exact stepOnce_validAligned t l hv

theorem merge_validAligned (x : List Net) (t : ℕ)
    (hv : ∀ n ∈ x, Valid n ∧ Aligned n) :
    ∀ n ∈ merge_ipv4_nets x t, Valid n ∧ Aligned n := by
  unfold merge_ipv4_nets
  exact mergeLoop_validAligned t _ (sortAndDedup x)
    (fun n hn => hv n (mem_sortAndDedup.mp hn))

theorem bcast_eq (n : Net) : bcast n = netAddr n + blockSize n - 1 := rfl

theorem mul_interval_nested {k a' b' c : ℕ} (h1 : k * b' < k * a' + k * c)
    (h2 : k * a' < k * b' + k) :
    k * a' ≤ k * b' ∧ k * b' + k ≤ k * a' + k * c := by
  have e1 : k * b' < k * (a' + c) := by rw [Nat.mul_add]; omega
  have e2 : k * a' < k * (b' + 1) := by rw [Nat.mul_add, Nat.mul_one]; omega
  have l1 : b' < a' + c := Nat.lt_of_mul_lt_mul_left e1
  have l2 : a' < b' + 1 := Nat.lt_of_mul_lt_mul_left e2
  constructor
  · exact Nat.mul_le_mul_left k (by omega)
  · have h3 : k * (b' + 1) ≤ k * (a' + c) := Nat.mul_le_mul_left k (by omega)
    rw [Nat.mul_add, Nat.mul_one, Nat.mul_add] at h3
    omega

theorem interval_nested {k K a b : ℕ} (hdvd : k ∣ K)
    (haK : K ∣ a) (hbk : k ∣ b) (h1 : b < a + K) (h2 : a < b + k) :
    a ≤ b ∧ b + k ≤ a + K := by
  obtain ⟨c, rfl⟩ := hdvd
  obtain ⟨a1, rfl⟩ := dvd_trans (dvd_mul_right k c) haK
  obtain ⟨b1, rfl⟩ := hbk
  exact mul_interval_nested h1 h2

theorem nested_or_disjoint (A B : Net)
    (h1 : netAddr B ≤ bcast A) (h2 : netAddr A ≤ bcast B) :
    rangeSub A B ∨ rangeSub B A := by
  have hkA := blockSize_pos A
  have hkB := blockSize_pos B
  have eA := bcast_eq A
  have eB := bcast_eq B
  rcases Nat.le_total (32 - B.plen) (32 - A.plen) with hp | hp
  · right
    have hdvd : blockSize B ∣ blockSize A := pow_dvd_pow 2 hp
    obtain ⟨ha, hb2⟩ := interval_nested hdvd (blockSize_dvd_netAddr A)
      (blockSize_dvd_netAddr B) (by omega) (by omega)
    unfold rangeSub
    omega
  · left
    have hdvd : blockSize A ∣ blockSize B := pow_dvd_pow 2 hp
    obtain ⟨ha, hb2⟩ := interval_nested hdvd (blockSize_dvd_netAddr B)
      (blockSize_dvd_netAddr A) (by omega) (by omega)
    unfold rangeSub
    omega

theorem networkCovers_of_rangeSub {A B : Net} (hvA : Valid A) (hvB : Valid B)
    (h : rangeSub B A) : networkCovers A B = true := by
  obtain ⟨h1, h2⟩ := h
  have hkA := blockSize_pos A
  have hkB := blockSize_pos B
  have eA := bcast_eq A
  have eB := bcast_eq B
  have hk : blockSize B ≤ blockSize A := by omega
  have hp : A.plen ≤ B.plen := by
    unfold blockSize at hk
    have h3 := (Nat.pow_le_pow_iff_right (show (1:ℕ) < 2 by norm_num)).mp hk
    have h4 := hvA.2
    have h5 := hvB.2
    omega
  unfold networkCovers
  rw [if_neg (by omega)]
  simp only [Bool.and_eq_true, decide_eq_true_iff, ge_iff_le]
  exact ⟨h1, h2⟩

theorem netAddr_le_of_netLt {A B : Net} (hA : Aligned A) (hB : Aligned B)
    (h : netLt A B) : netAddr A ≤ netAddr B := by
  rw [netAddr_eq_addr hA, netAddr_eq_addr hB]
  unfold netLt at h
  rcases h with h | ⟨h, _⟩ <;> omega

theorem not_rangeSub_of_netLt {A B : Net} (hvA : Valid A) (hvB : Valid B)
    (haA : Aligned A) (haB : Aligned B) (h : netLt A B) : ¬ rangeSub A B := by
  intro hsub
  obtain ⟨h1, h2⟩ := hsub
  have e1 : netAddr A = A.addr := netAddr_eq_addr haA
  have e2 : netAddr B = B.addr := netAddr_eq_addr haB
  unfold netLt at h
  rcases h with hlt | ⟨heq, hp⟩
  · omega
  · have hk : blockSize B < blockSize A := by
      unfold blockSize
      apply Nat.pow_lt_pow_right (by norm_num : 1 < 2)
      have := hvA.2
      have := hvB.2
      omega
    have eA := bcast_eq A
    have eB := bcast_eq B
    have hkA := blockSize_pos A
    have hkB := blockSize_pos B
    omega

theorem rcAux_eq_self_chain : ∀ {l : List Net} {last : Net}, rcAux last l = l →
    List.Chain' (fun a b => networkCovers a b = false) (last :: l)
  | [], last, _ => List.chain'_singleton last
  | n :: rest, last, h => by
    by_cases hc : networkCovers last n
    · exfalso
      simp only [rcAux, hc, if_true] at h
      have hle := (rcAux_sublist last rest).length_le
      have hlen : (rcAux last rest).length = rest.length + 1 := by rw [h]; simp
      omega
    · rw [Bool.not_eq_true] at hc
      simp only [rcAux, hc, Bool.false_eq_true, if_false, List.cons.injEq] at h
      exact List.chain'_cons.mpr ⟨hc, rcAux_eq_self_chain h.2⟩

theorem removeCovered_eq_self_chain {l : List Net}
    (h : (removeCoveredNets l).1 = l) :
    List.Chain' (fun a b => networkCovers a b = false) l := by
  cases l with
  | nil => exact List.chain'_nil
  | cons n rest =>
    have h2 : rcAux n rest = rest := by
      have h3 : n :: rcAux n rest = n :: rest := h
      exact (List.cons.injEq _ _ _ _).mp h3 |>.2
    exact rcAux_eq_self_chain h2

theorem pairwise_not_contained : ∀ {l : List Net},
    (∀ n ∈ l, Valid n ∧ Aligned n) → List.Pairwise netLt l →
    List.Chain' (fun a b => networkCovers a b = false) l →
    List.Pairwise (fun a b => ¬ rangeSub a b ∧ ¬ rangeSub b a) l
  | [], _, _, _ => List.Pairwise.nil
  | A :: rest, hv, hp, hc => by
    obtain ⟨hpA, hprest⟩ := List.pairwise_cons.mp hp
    have hvA := hv A (by simp)
    refine List.pairwise_cons.mpr ⟨?_, pairwise_not_contained
      (fun n hn => hv n (by simp [hn])) hprest hc.tail⟩
    intro B hB
    have hvB := hv B (by simp [hB])
    refine ⟨not_rangeSub_of_netLt hvA.1 hvB.1 hvA.2 hvB.2 (hpA B hB), ?_⟩
    cases rest with
    | nil => cases hB
    | cons C rest2 =>
      have hvC := hv C (by simp)
      have hAC : networkCovers A C = false := (List.chain'_cons.mp hc).1
      have hCA : ¬ rangeSub C A := by
        intro hsub
        rw [networkCovers_of_rangeSub hvA.1 hvC.1 hsub] at hAC
        cases hAC
      rcases List.mem_cons.mp hB with rfl | hB2
      · exact hCA
      · intro hsub
        have hnACle : netAddr A ≤ netAddr C :=
          netAddr_le_of_netLt hvA.2 hvC.2 (hpA C (by simp))
        have hnCBle : netAddr C ≤ netAddr B :=
          netAddr_le_of_netLt hvC.2 hvB.2 ((List.pairwise_cons.mp hprest).1 B hB2)
        obtain ⟨hs1, hs2⟩ := hsub
        have hint1 : netAddr C ≤ bcast A :=
          le_trans hnCBle (le_trans (netAddr_le_bcast B) hs2)
        have hint2 : netAddr A ≤ bcast C := le_trans hnACle (netAddr_le_bcast C)
        rcases nested_or_disjoint A C hint1 hint2 with hAC2 | hCA2
        · exact not_rangeSub_of_netLt hvA.1 hvC.1 hvA.2 hvC.2 (hpA C (by simp)) hAC2
        · exact hCA hCA2

/-- C4 (amended): for inputs whose stored addresses are network-aligned
(and valid), the result of `merge_ipv4_nets` at any tolerance is (a)
strictly increasing by network address with ties broken by increasing
prefix length, (b) free of exact duplicates, (c) free of any network whose
address range is wholly contained in another element's range, and (d) a
local fixed point: the tolerance merge primitive fails on every adjacent
pair. -/
theorem merge_invariants_aligned (x : List Net) (t : ℕ)
    (hx : ∀ n ∈ x, Valid n ∧ Aligned n) :
    List.Pairwise specLt (merge_ipv4_nets x t)
    ∧ List.Pairwise (fun a b => a ≠ b) (merge_ipv4_nets x t)
    ∧ List.Pairwise (fun a b => ¬ rangeSub a b ∧ ¬ rangeSub b a) (merge_ipv4_nets x t)
    ∧ List.Chain' (fun a b => tryMergeWithTolerance a b t = none)
        (merge_ipv4_nets x t) := by
  obtain ⟨hfix, hp⟩ := merge_fix x t
  have hv := merge_validAligned x t hx
  have hflag : (stepOnce t (merge_ipv4_nets x t)).2 = false := by rw [hfix]
  have hm : (mergePass t (merge_ipv4_nets x t)).2 = false := by
    have h2 := hflag
    simp only [stepOnce, Bool.or_eq_false_iff] at h2
    exact h2.1
  have hmp : (mergePass t (merge_ipv4_nets x t)).1 = merge_ipv4_nets x t :=
    mergePass_id t _ hm
  have hrc_eq : (removeCoveredNets (merge_ipv4_nets x t)).1 = merge_ipv4_nets x t := by
    have h1 : (stepOnce t (merge_ipv4_nets x t)).1 = merge_ipv4_nets x t := by rw [hfix]
    simpa [stepOnce, hmp, sortAndDedup_eq_self hp] using h1
  refine ⟨?_, ?_, ?_, ?_⟩
  · refine hp.imp_of_mem ?_
    intro a b ha hb hab
    have hva := hv a ha
    have hvb := hv b hb
    unfold specLt
    rw [netAddr_eq_addr hva.2, netAddr_eq_addr hvb.2]
    unfold netLt at hab
    exact hab
  · exact hp.imp ne_of_netLt
  · exact pairwise_not_contained hv hp (removeCovered_eq_self_chain hrc_eq)
  · exact mergePass_none_chain t _ hm

theorem merge_invariants_aligned_witness :
    List.Pairwise specLt (merge_ipv4_nets [⟨167772160, 24⟩, ⟨167772160, 16⟩] 0)
    ∧ List.Pairwise (fun a b => a ≠ b)
        (merge_ipv4_nets [⟨167772160, 24⟩, ⟨167772160, 16⟩] 0)
    ∧ List.Pairwise (fun a b => ¬ rangeSub a b ∧ ¬ rangeSub b a)
        (merge_ipv4_nets [⟨167772160, 24⟩, ⟨167772160, 16⟩] 0)
    ∧ List.Chain' (fun a b => tryMergeWithTolerance a b 0 = none)
        (merge_ipv4_nets [⟨167772160, 24⟩, ⟨167772160, 16⟩] 0) :=
  merge_invariants_aligned [⟨167772160, 24⟩, ⟨167772160, 16⟩] 0 (by decide)

/-- C4 (counterexample to the claim as stated): on the valid but unaligned
input `[10.0.0.3/24, 10.0.0.5/16]` at tolerance 0, the result keeps both
entries in stored-address order; their network addresses are equal with
prefix length decreasing (violating (a)) and the first element's range is
wholly contained in the second's (violating (c)). -/
theorem merge_invariants_counterexample :
    ¬ (List.Pairwise specLt (merge_ipv4_nets [⟨167772163, 24⟩, ⟨167772165, 16⟩] 0)
      ∧ List.Pairwise (fun a b => a ≠ b)
          (merge_ipv4_nets [⟨167772163, 24⟩, ⟨167772165, 16⟩] 0)
      ∧ List.Pairwise (fun a b => ¬ rangeSub a b ∧ ¬ rangeSub b a)
          (merge_ipv4_nets [⟨167772163, 24⟩, ⟨167772165, 16⟩] 0)
      ∧ List.Chain' (fun a b => tryMergeWithTolerance a b 0 = none)
          (merge_ipv4_nets [⟨167772163, 24⟩, ⟨167772165, 16⟩] 0)) := by
  intro h
  obtain ⟨_, _, hcont, _⟩ := h
  rw [show merge_ipv4_nets [⟨167772163, 24⟩, ⟨167772165, 16⟩] 0
      = [⟨167772163, 24⟩, ⟨167772165, 16⟩] from by decide] at hcont
  have h2 := (List.pairwise_cons.mp hcont).1 ⟨167772165, 16⟩ (by simp)
  exact h2.1 (by decide)

/-- C8 (amended): `try_merge_exact` succeeds exactly under the claimed four
conditions read on the STORED addresses (not the masked network
addresses): equal prefix length `p > 0`, stored `a.addr` a multiple of
`2 * 2^(32-p)`, and stored `b.addr = a.addr + 2^(32-p)`; on success the
supernet carries stored address `a.addr` and prefix `p-1`. -/
theorem tryMergeExact_spec (a b : Net) (ha : Valid a) (_hb : Valid b) :
    (tryMergeExact a b = some ⟨a.addr, a.plen - 1⟩ ↔
      (a.plen = b.plen ∧ 0 < a.plen ∧ 2 * 2 ^ (32 - a.plen) ∣ a.addr ∧
        b.addr = a.addr + 2 ^ (32 - a.plen)))
    ∧ ∀ s, tryMergeExact a b = some s → s = ⟨a.addr, a.plen - 1⟩ := by
  constructor
  · constructor
    · intro h
      obtain ⟨h1, h2, h3, h4, _⟩ := tryMergeExact_eq_some h
      refine ⟨h1, h2, ?_, h4.symm⟩
      have h5 := Nat.dvd_of_mod_eq_zero h3
      rwa [Nat.mul_comm] at h5
    · rintro ⟨h1, h2, h3, h4⟩
      have hc1 : ¬ (a.plen ≠ b.plen ∨ a.plen = 0) := by
        push_neg
        exact ⟨h1, by omega⟩
      have hmod : a.addr % (2 ^ (32 - a.plen) * 2) = 0 :=
        Nat.mod_eq_zero_of_dvd (by rwa [Nat.mul_comm] at h3)
      unfold tryMergeExact
      rw [if_neg hc1]
      show (if ¬ a.addr % (2 ^ (32 - a.plen) * 2) = 0 then none
            else if ¬ a.addr + 2 ^ (32 - a.plen) = b.addr then none
            else if a.plen - 1 ≤ 32 then some (⟨a.addr, a.plen - 1⟩ : Net) else none)
          = some (⟨a.addr, a.plen - 1⟩ : Net)
      rw [if_neg (not_not_intro hmod), if_neg (not_not_intro h4.symm),
        if_pos (show a.plen - 1 ≤ 32 by have := ha.2; omega)]
  · intro s hs
    exact (tryMergeExact_eq_some hs).2.2.2.2

theorem tryMergeExact_spec_witness :
    tryMergeExact ⟨167772160, 24⟩ ⟨167772416, 24⟩ = some ⟨167772160, 23⟩ :=
  ((tryMergeExact_spec ⟨167772160, 24⟩ ⟨167772416, 24⟩ (by decide) (by decide)).1).mpr
    (by decide)

/-- C8 (counterexample to the claim as stated): `a = 10.0.0.1/24` (stored
address unaligned), `b = 10.0.1.0/24`: the claim's conditions on the
NETWORK addresses all hold (10.0.0.0 is a multiple of 512 and
10.0.1.0 = 10.0.0.0 + 256), so the claimed iff demands `Some`, but the
code tests the stored address 10.0.0.1 and returns `None`. -/
theorem tryMergeExact_counterexample :
    tryMergeExact ⟨167772161, 24⟩ ⟨167772416, 24⟩ = none
    ∧ (⟨167772161, 24⟩ : Net).plen = (⟨167772416, 24⟩ : Net).plen
    ∧ 0 < (⟨167772161, 24⟩ : Net).plen
    ∧ netAddr ⟨167772161, 24⟩ % (2 * 2 ^ (32 - (⟨167772161, 24⟩ : Net).plen)) = 0
    ∧ netAddr ⟨167772416, 24⟩
        = netAddr ⟨167772161, 24⟩ + 2 ^ (32 - (⟨167772161, 24⟩ : Net).plen) := by
  refine ⟨by decide, by decide, by decide, by decide, by decide⟩

/-- C9 (amended): `sort_and_dedup` sorts by (STORED address ascending,
prefix length ascending) and removes exact duplicates (equal stored
address and prefix), preserving membership; when every stored address is
network-aligned this coincides with the claimed
(network_address, prefix length) order; empty input yields empty output. -/
theorem sortAndDedup_spec (l : List Net) :
    List.Pairwise netLt (sortAndDedup l)
    ∧ (∀ n, n ∈ sortAndDedup l ↔ n ∈ l)
    ∧ ((∀ n ∈ l, Aligned n) → List.Pairwise specLt (sortAndDedup l))
    ∧ (l = [] → sortAndDedup l = []) := by
  refine ⟨sortAndDedup_pairwise l, fun n => mem_sortAndDedup, ?_, ?_⟩
  · intro hal
    refine (sortAndDedup_pairwise l).imp_of_mem ?_
    intro a b hma hmb hab
    have h1 := hal a (mem_sortAndDedup.mp hma)
    have h2 := hal b (mem_sortAndDedup.mp hmb)
    unfold specLt
    rw [netAddr_eq_addr h1, netAddr_eq_addr h2]
    unfold netLt at hab
    exact hab
  · rintro rfl
    rfl

theorem sortAndDedup_spec_witness :
    ((⟨256, 24⟩ : Net) ∈ sortAndDedup [⟨0, 16⟩, ⟨256, 24⟩, ⟨0, 16⟩])
    ∧ List.Pairwise specLt (sortAndDedup [⟨0, 16⟩, ⟨256, 24⟩, ⟨0, 16⟩])
    ∧ sortAndDedup ([] : List Net) = [] :=
  ⟨((sortAndDedup_spec [⟨0, 16⟩, ⟨256, 24⟩, ⟨0, 16⟩]).2.1 ⟨256, 24⟩).mpr (by decide),
   (sortAndDedup_spec [⟨0, 16⟩, ⟨256, 24⟩, ⟨0, 16⟩]).2.2.1 (by decide),
   (sortAndDedup_spec []).2.2.2 rfl⟩

/-- C9 (counterexample to the claim as stated): on the valid but unaligned
input `[10.0.1.1/16, 10.0.0.0/24]` the code sorts by STORED address and
returns `[10.0.0.0/24, 10.0.1.1/16]`, whose two entries have equal network
address 10.0.0.0 with prefix length DECREASING (24 then 16) — not the
claimed (network_address ascending, prefix ascending) order. -/
theorem sortAndDedup_counterexample :
    sortAndDedup [⟨167772417, 16⟩, ⟨167772160, 24⟩]
      = [⟨167772160, 24⟩, ⟨167772417, 16⟩]
    ∧ netAddr ⟨167772417, 16⟩ = netAddr ⟨167772160, 24⟩
    ∧ (⟨167772417, 16⟩ : Net).plen < (⟨167772160, 24⟩ : Net).plen :=
  ⟨by decide, by decide, by decide⟩

/-- C10: `parse_ipv4_nets` trims each line and silently skips blank or
whitespace-only lines: when the abstract CIDR parser succeeds on every
trimmed non-blank line, the result is `Ok` with exactly those parses in
line order; blank lines never error and never contribute. -/
theorem parse_ipv4_nets_ok (p : List Char → Option Net) (lines : List (List Char))
    (idx : ℕ)
    (h : ∀ l ∈ lines, ¬ (trimLine l).isEmpty = true → (p (trimLine l)).isSome) :
    parse_ipv4_nets p lines idx =
      Except.ok (lines.filterMap fun l =>
        if (trimLine l).isEmpty then none else p (trimLine l)) := by
  induction lines generalizing idx with
  | nil => rfl
  | cons line rest ih =>
    have hrest : ∀ l ∈ rest, ¬ (trimLine l).isEmpty = true → (p (trimLine l)).isSome :=
      fun l hl => h l (by simp [hl])
    by_cases hb : (trimLine line).isEmpty
    · simp only [parse_ipv4_nets, hb, if_true, List.filterMap_cons]
      exact ih (idx + 1) hrest
    · have hsome : (p (trimLine line)).isSome := h line (by simp) hb
      obtain ⟨n, hn⟩ := Option.isSome_iff_exists.mp hsome
      simp only [parse_ipv4_nets, hb, Bool.false_eq_true, if_false, hn,
        List.filterMap_cons]
      rw [ih (idx + 1) hrest]
      rfl

theorem parse_ipv4_nets_ok_witness :
    (∀ l ∈ [[' ', 'x', ' '], ([] : List Char), [' ', '\t'],
          [Char.ofNat 0x0C, Char.ofNat 0x3000]],
        ¬ (trimLine l).isEmpty = true →
          ((fun s => if s = ['x'] then some (⟨1, 32⟩ : Net) else none)
            (trimLine l)).isSome)
    ∧ parse_ipv4_nets (fun s => if s = ['x'] then some ⟨1, 32⟩ else none)
        [[' ', 'x', ' '], [], [' ', '\t'], [Char.ofNat 0x0C, Char.ofNat 0x3000]] 0
        = Except.ok [⟨1, 32⟩] := by
  refine ⟨by decide, ?_⟩
  rw [parse_ipv4_nets_ok (fun s => if s = ['x'] then some ⟨1, 32⟩ else none)
    [[' ', 'x', ' '], [], [' ', '\t'], [Char.ofNat 0x0C, Char.ofNat 0x3000]] 0
    (by decide)]
  rfl

end Clpsr
